import Mathlib

/-!
Verification of the video-translation job-tracking service.

The service (TypeScript, tRPC + Drizzle over one Postgres table) is embedded
shallowly: the database is a `Store` (list of rows in insertion order plus the
serial-id counter), each handler becomes a pure function on `Store` — except
the listing query, whose tie order PostgreSQL leaves unspecified and which is
therefore embedded as a predicate on permissible results — and the
zod input schemas become parse functions from raw inputs.  Timestamps are
naturals supplied explicitly (the `now` argument stands for `new Date()` /
`defaultNow()`); the random token and timestamp of `uploadVideo` are
environment inputs.
-/

namespace VideoDubber

/-- The `supported_languages` enum from `db/schema.ts` / zod
`supportedLanguagesSchema`: the fixed 12-code set. -/
inductive SupportedLanguage
  | en | es | fr | de | it | pt | ru | ja | ko | zh | ar | hi
  deriving DecidableEq, Repr

/-- The `translation_status` enum: `pending | processing | completed | failed`. -/
inductive TranslationStatus
  | pending | processing | completed | failed
  deriving DecidableEq, Repr

/-- One row of the `translation_jobs` table (`translationJobsTable` in
`db/schema.ts`).  Nullable columns are `Option`s; timestamps are naturals. -/
structure TranslationJob where
  id : Nat
  original_filename : String
  original_file_path : String
  detected_language : Option SupportedLanguage
  target_language : SupportedLanguage
  status : TranslationStatus
  translated_file_path : Option String
  transcript : Option String
  translated_transcript : Option String
  error_message : Option String
  created_at : Nat
  updated_at : Nat
  deriving DecidableEq, Repr

/-- The database state: rows in insertion order plus the `serial` id counter
(Postgres serials start at 1). -/
structure Store where
  jobs : List TranslationJob
  nextId : Nat
  deriving DecidableEq, Repr

/-- The empty database. -/
def Store.empty : Store := ⟨[], 1⟩

/-- Parsed `CreateTranslationJobInput` (output of the zod schema). -/
structure CreateTranslationJobInput where
  original_filename : String
  original_file_path : String
  target_language : SupportedLanguage
  deriving DecidableEq, Repr

/-- Raw (pre-validation) creation input: what a caller sends on the wire. -/
structure RawCreateInput where
  original_filename : String
  original_file_path : String
  target_language : String
  deriving DecidableEq, Repr

/-- The string codes accepted by `supportedLanguagesSchema`. -/
def supportedLanguageCodes : List String :=
  ["en", "es", "fr", "de", "it", "pt", "ru", "ja", "ko", "zh", "ar", "hi"]

/-- Decode a language code string, as zod's enum validation does. -/
def SupportedLanguage.ofString? : String → Option SupportedLanguage
  | "en" => some .en
  | "es" => some .es
  | "fr" => some .fr
  | "de" => some .de
  | "it" => some .it
  | "pt" => some .pt
  | "ru" => some .ru
  | "ja" => some .ja
  | "ko" => some .ko
  | "zh" => some .zh
  | "ar" => some .ar
  | "hi" => some .hi
  | _ => none

/-- `createTranslationJobInputSchema` from `schema.ts`: `original_filename`
and `original_file_path` must satisfy `min(1)` (non-empty), and
`target_language` must be one of the 12 codes. -/
def parseCreateTranslationJobInput (r : RawCreateInput) : Option CreateTranslationJobInput :=
  if r.original_filename.length < 1 then none
  else if r.original_file_path.length < 1 then none
  else match SupportedLanguage.ofString? r.target_language with
    | some lang => some ⟨r.original_filename, r.original_file_path, lang⟩
    | none => none

/-- `updateTranslationJobInputSchema` from `schema.ts`.  `detected_language`
and `status` are `.optional()` (present or omitted, never null), the four text
fields are `.nullable().optional()` (omitted / explicit null / a string), so
the latter are embedded as `Option (Option String)` with the outer layer
meaning presence. -/
structure UpdateTranslationJobInput where
  id : Nat
  detected_language : Option SupportedLanguage
  status : Option TranslationStatus
  translated_file_path : Option (Option String)
  transcript : Option (Option String)
  translated_transcript : Option (Option String)
  error_message : Option (Option String)
  deriving DecidableEq, Repr

/-- The update input with every optional field omitted: `update(id, {})`. -/
def emptyUpdate (id : Nat) : UpdateTranslationJobInput :=
  ⟨id, none, none, none, none, none, none⟩

/-- `handlers/create_translation_job.ts`: insert a row with the given fields,
`status: 'pending'`, all nullable columns null, timestamps defaulted to `now`
by the database; return the inserted row. -/
def createTranslationJob (s : Store) (input : CreateTranslationJobInput) (now : Nat) :
    Store × TranslationJob :=
  let job : TranslationJob :=
    { id := s.nextId
      original_filename := input.original_filename
      original_file_path := input.original_file_path
      detected_language := none
      target_language := input.target_language
      status := .pending
      translated_file_path := none
      transcript := none
      translated_transcript := none
      error_message := none
      created_at := now
      updated_at := now }
  (⟨s.jobs ++ [job], s.nextId + 1⟩, job)

/-- The gateway procedure for `createTranslationJob`: zod validation first, and
the handler runs only when validation succeeds (a validation failure reaches
the caller as an error and touches nothing). -/
def createTranslationJobProc (s : Store) (r : RawCreateInput) (now : Nat) :
    Store × Option TranslationJob :=
  match parseCreateTranslationJobInput r with
  | none => (s, none)
  | some input =>
    let res := createTranslationJob s input now
    (res.1, some res.2)

/-- `handlers/get_translation_job.ts`: `SELECT ... WHERE id = $1 LIMIT 1`,
returning the row or null. -/
def getTranslationJob (s : Store) (id : Nat) : Option TranslationJob :=
  s.jobs.find? (fun j => j.id = id)

/-- Apply the `.set({...updateData, updated_at: now})` of
`handlers/update_translation_job.ts` to one row: exactly the fields present in
the parsed input are assigned (zod strips omitted keys, so the spread carries
only present fields), and `updated_at` is always assigned `now`. -/
def applyUpdate (j : TranslationJob) (u : UpdateTranslationJobInput) (now : Nat) :
    TranslationJob :=
  { j with
    detected_language :=
      match u.detected_language with
      | some lang => some lang
      | none => j.detected_language
    status := u.status.getD j.status
    translated_file_path := u.translated_file_path.getD j.translated_file_path
    transcript := u.transcript.getD j.transcript
    translated_transcript := u.translated_transcript.getD j.translated_transcript
    error_message := u.error_message.getD j.error_message
    updated_at := now }

/-- `handlers/update_translation_job.ts`: `UPDATE ... WHERE id = $1 RETURNING *`;
every matching row is rewritten, the first returned row is the result, and a
match-free update leaves the table as it was and returns null. -/
def updateTranslationJob (s : Store) (u : UpdateTranslationJobInput) (now : Nat) :
    Store × Option TranslationJob :=
  let updatedRows := (s.jobs.filter (fun j => j.id = u.id)).map (fun j => applyUpdate j u now)
  match updatedRows with
  | [] => (s, none)
  | r :: _ =>
    (⟨s.jobs.map (fun j => if j.id = u.id then applyUpdate j u now else j), s.nextId⟩, some r)

/-- `handlers/get_translation_jobs.ts`: `SELECT ... ORDER BY created_at DESC`.
PostgreSQL guarantees only that the returned rows are exactly the table's
rows in some order non-increasing on `created_at`; with no secondary sort key
and no stable sort, the relative order of rows sharing a `created_at` is
unspecified.  The handler returns the query result unchanged, so the faithful
embedding is the predicate describing the permissible results. -/
def getTranslationJobsResult (s : Store) (l : List TranslationJob) : Prop :=
  l.Perm s.jobs ∧ l.Pairwise (fun a b => b.created_at ≤ a.created_at)

/-- Parsed `UploadVideoInput`: non-empty filename, base64 payload (kept
abstract as a string), target language in the 12-code set. -/
structure UploadVideoInput where
  filename : String
  file_data : String
  target_language : SupportedLanguage
  deriving DecidableEq, Repr

/-- The storage path built by `handlers/upload_video.ts`:
`/uploads/videos/TIMESTAMP_RANDOMID_FILENAME` where `TIMESTAMP` is
`Date.now()` rendered in decimal and `RANDOMID` is
`Math.random().toString(36).substring(2, 8)`. -/
def mkUploadPath (timestamp : Nat) (randomId : String) (filename : String) : String :=
  "/uploads/videos/" ++ Nat.repr timestamp ++ "_" ++ randomId ++ "_" ++ filename

/-- A character `Math.random().toString(36)` can emit after the point:
a decimal digit or a lowercase latin letter. -/
def base36Char (c : Char) : Prop := c.isDigit = true ∨ ('a' ≤ c ∧ c ≤ 'z')

/-- The random token of `uploadVideo` is a (possibly empty) string of base-36
characters. -/
def base36Token (r : String) : Prop := ∀ c ∈ r.data, base36Char c

/-- `handlers/upload_video.ts`: write the decoded payload under the generated
path (the file store is outside the table model) and insert a job row with
`status: 'pending'`; the unset nullable columns and the timestamps take their
database defaults.  `timestamp` and `randomId` are the environment inputs of
step 1, `now` is the database clock. -/
def uploadVideo (s : Store) (input : UploadVideoInput) (timestamp : Nat)
    (randomId : String) (now : Nat) : Store × TranslationJob :=
  let filePath := mkUploadPath timestamp randomId input.filename
  let job : TranslationJob :=
    { id := s.nextId
      original_filename := input.filename
      original_file_path := filePath
      detected_language := none
      target_language := input.target_language
      status := .pending
      translated_file_path := none
      transcript := none
      translated_transcript := none
      error_message := none
      created_at := now
      updated_at := now }
  (⟨s.jobs ++ [job], s.nextId + 1⟩, job)

/-- An entry returned by `getSupportedLanguages`. -/
structure LanguageOption where
  code : SupportedLanguage
  name : String
  deriving DecidableEq, Repr

/-- The `languageNames` record of `handlers/get_supported_languages.ts`, in
property-insertion order (which `Object.entries` preserves). -/
def languageNames : List LanguageOption :=
  [⟨.en, "English"⟩, ⟨.es, "Spanish"⟩, ⟨.fr, "French"⟩, ⟨.de, "German"⟩,
   ⟨.it, "Italian"⟩, ⟨.pt, "Portuguese"⟩, ⟨.ru, "Russian"⟩, ⟨.ja, "Japanese"⟩,
   ⟨.ko, "Korean"⟩, ⟨.zh, "Chinese"⟩, ⟨.ar, "Arabic"⟩, ⟨.hi, "Hindi"⟩]

/-- `handlers/get_supported_languages.ts`: the entries of `languageNames`
sorted by display name with a stable sort (`Array.prototype.sort` is stable;
`localeCompare` on these ASCII names coincides with code-point order). -/
def getSupportedLanguages : List LanguageOption :=
  languageNames.mergeSort (fun a b => a.name ≤ b.name)

/-! ### Helper lemmas -/

theorem find?_eq_head?_filter {α : Type _} (p : α → Bool) (l : List α) :
    l.find? p = (l.filter p).head? := by
  induction l with
  | nil => rfl
  | cons a t ih =>
    by_cases hpa : p a
    · rw [List.find?_cons_of_pos _ hpa, List.filter_cons_of_pos hpa, List.head?_cons]
    · rw [List.find?_cons_of_neg _ hpa, List.filter_cons_of_neg hpa, ih]

theorem applyUpdate_id (j : TranslationJob) (u : UpdateTranslationJobInput) (now : Nat) :
    (applyUpdate j u now).id = j.id := rfl

/-- An update whose id matches a stored row rewrites the matching rows in
place and returns the rewrite of the first match. -/
theorem updateTranslationJob_found (s : Store) (u : UpdateTranslationJobInput) (now : Nat)
    (j : TranslationJob) (h : getTranslationJob s u.id = some j) :
    updateTranslationJob s u now =
      (⟨s.jobs.map (fun k => if k.id = u.id then applyUpdate k u now else k), s.nextId⟩,
       some (applyUpdate j u now)) := by
  unfold getTranslationJob at h
  rw [find?_eq_head?_filter] at h
  unfold updateTranslationJob
  cases hfil : s.jobs.filter (fun k => k.id = u.id) with
  | nil => rw [hfil] at h; simp at h
  | cons a t =>
    rw [hfil] at h
    simp only [List.head?_cons, Option.some.injEq] at h
    subst h
    simp [hfil]

theorem unsupported_code_parses_to_none (str : String) (h : str ∉ supportedLanguageCodes) :
    SupportedLanguage.ofString? str = none := by
  unfold SupportedLanguage.ofString?
  split
  all_goals first
    | rfl
    | (exfalso; exact h (by decide))

/-- Looking up any id in the table rewritten by an update is the lookup in
the old table with the rewrite applied to the found row. -/
theorem find?_map_update (l : List TranslationJob) (u : UpdateTranslationJobInput)
    (now : Nat) (i : Nat) :
    (l.map (fun k => if k.id = u.id then applyUpdate k u now else k)).find?
        (fun k => k.id = i) =
      (l.find? (fun k => k.id = i)).map
        (fun k => if k.id = u.id then applyUpdate k u now else k) := by
  rw [List.find?_map]
  have hpf : ((fun k => decide (k.id = i)) ∘
      fun k => if k.id = u.id then applyUpdate k u now else k) =
      (fun k : TranslationJob => decide (k.id = i)) := by
    funext k
    by_cases hk : k.id = u.id <;> simp [Function.comp, hk, applyUpdate_id]
  rw [hpf]

theorem digitChar_isDigit (m : Nat) (h : m < 10) : (Nat.digitChar m).isDigit = true := by
  interval_cases m <;> decide

theorem digitChar_val (m : Nat) (h : m < 10) : (Nat.digitChar m).toNat - 48 = m := by
  interval_cases m <;> decide

/-- Every character `Nat.toDigitsCore` adds in base 10 is a decimal digit. -/
theorem toDigitsCore_digits (f : Nat) : ∀ (n : Nat) (ds : List Char),
    (∀ c ∈ ds, c.isDigit = true) → ∀ c ∈ Nat.toDigitsCore 10 f n ds, c.isDigit = true := by
  induction f with
  | zero => intro n ds hds c hc; simp only [Nat.toDigitsCore] at hc; exact hds c hc
  | succ f ih =>
    intro n ds hds c hc
    simp only [Nat.toDigitsCore] at hc
    by_cases h0 : n / 10 = 0
    · rw [if_pos h0] at hc
      rcases List.mem_cons.mp hc with hc | hc
      · subst hc; exact digitChar_isDigit _ (Nat.mod_lt _ (by norm_num))
      · exact hds c hc
    · rw [if_neg h0] at hc
      refine ih (n / 10) _ ?_ c hc
      intro d hd
      rcases List.mem_cons.mp hd with hd | hd
      · subst hd; exact digitChar_isDigit _ (Nat.mod_lt _ (by norm_num))
      · exact hds d hd

theorem toDigitsCore_append (f : Nat) : ∀ (n : Nat) (ds : List Char),
    Nat.toDigitsCore 10 f n ds = Nat.toDigitsCore 10 f n [] ++ ds := by
  induction f with
  | zero => intro n ds; simp [Nat.toDigitsCore]
  | succ f ih =>
    intro n ds
    simp only [Nat.toDigitsCore]
    by_cases h0 : n / 10 = 0
    · rw [if_pos h0, if_pos h0]; rfl
    · rw [if_neg h0, if_neg h0, ih (n / 10) [Nat.digitChar (n % 10)],
        ih (n / 10) (Nat.digitChar (n % 10) :: ds), List.append_assoc]
      rfl

/-- Reading a digit string back as a number (proof helper for the
injectivity of decimal rendering). -/
def decimalVal (l : List Char) : Nat :=
  l.foldl (fun a c => 10 * a + (c.toNat - 48)) 0

theorem decimalVal_append_singleton (l : List Char) (d : Char) :
    decimalVal (l ++ [d]) = 10 * decimalVal l + (d.toNat - 48) := by
  unfold decimalVal
  rw [List.foldl_append]
  rfl

theorem decimalVal_toDigitsCore (f : Nat) : ∀ n : Nat, n < f →
    decimalVal (Nat.toDigitsCore 10 f n []) = n := by
  induction f with
  | zero => intro n hn; omega
  | succ f ih =>
    intro n hn
    simp only [Nat.toDigitsCore]
    by_cases h0 : n / 10 = 0
    · rw [if_pos h0]
      have hlt : n < 10 := by omega
      have hmod : n % 10 = n := Nat.mod_eq_of_lt hlt
      unfold decimalVal
      simp only [List.foldl_cons, List.foldl_nil]
      rw [hmod]
      have := digitChar_val n hlt
      omega
    · rw [if_neg h0]
      rw [toDigitsCore_append f (n / 10) [Nat.digitChar (n % 10)]]
      rw [decimalVal_append_singleton]
      have hnpos : 1 ≤ n := by
        by_contra hc
        push_neg at hc
        interval_cases n
        simp at h0
      have hdiv : n / 10 < n := Nat.div_lt_self (by omega) (by norm_num)
      have hrec := ih (n / 10) (by omega)
      rw [hrec]
      have := digitChar_val (n % 10) (Nat.mod_lt _ (by norm_num))
      omega

/-- Decimal rendering is injective. -/
theorem repr_inj (m n : Nat) (h : Nat.repr m = Nat.repr n) : m = n := by
  have hl : Nat.toDigits 10 m = Nat.toDigits 10 n := by
    have := congrArg String.data h
    simpa [Nat.repr, List.asString] using this
  have hm := decimalVal_toDigitsCore (m + 1) m (Nat.lt_succ_self m)
  have hn := decimalVal_toDigitsCore (n + 1) n (Nat.lt_succ_self n)
  unfold Nat.toDigits at hl
  rw [← hm, ← hn, hl]

theorem repr_digits (n : Nat) : ∀ c ∈ (Nat.repr n).data, c.isDigit = true := by
  intro c hc
  have hdata : (Nat.repr n).data = Nat.toDigitsCore 10 (n + 1) n [] := rfl
  rw [hdata] at hc
  exact toDigitsCore_digits (n + 1) n [] (by intro d hd; simp at hd) c hc

/-- Unique parsing around a separator: lists free of the separator character
followed by a separator determine each other. -/
theorem sep_parse (a : List Char) : ∀ (b x y : List Char),
    (∀ c ∈ a, c ≠ '_') → (∀ c ∈ b, c ≠ '_') →
    a ++ '_' :: x = b ++ '_' :: y → a = b ∧ x = y := by
  induction a with
  | nil =>
    intro b x y _ hb h
    cases b with
    | nil => simpa using h
    | cons d bt =>
      exfalso
      simp only [List.nil_append, List.cons_append, List.cons.injEq] at h
      exact hb d (List.mem_cons_self d bt) h.1.symm
  | cons c at' ih =>
    intro b x y ha hb h
    cases b with
    | nil =>
      exfalso
      simp only [List.nil_append, List.cons_append, List.cons.injEq] at h
      exact ha c (List.mem_cons_self c at') h.1
    | cons d bt =>
      simp only [List.cons_append, List.cons.injEq] at h
      obtain ⟨rfl, h2⟩ := h
      have hrest := ih bt x y (fun e he => ha e (List.mem_cons_of_mem c he))
        (fun e he => hb e (List.mem_cons_of_mem c he)) h2
      exact ⟨by rw [hrest.1], hrest.2⟩

theorem isDigit_ne_underscore (c : Char) (h : c.isDigit = true) : c ≠ '_' := by
  intro hc
  subst hc
  simp at h

theorem base36_ne_underscore (c : Char) (h : base36Char c) : c ≠ '_' := by
  intro hc
  subst hc
  rcases h with h | h
  · simp at h
  · exact absurd h.1 (by decide)

/-- The generated upload path determines the (timestamp, token) pair that
produced it, for a fixed filename. -/
theorem mkUploadPath_inj (t1 t2 : Nat) (r1 r2 f : String)
    (h1 : base36Token r1) (h2 : base36Token r2)
    (h : mkUploadPath t1 r1 f = mkUploadPath t2 r2 f) : t1 = t2 ∧ r1 = r2 := by
  have hd := congrArg String.data h
  simp only [mkUploadPath, String.data_append] at hd
  simp only [List.append_assoc] at hd
  have hd2 := List.append_cancel_left hd
  have hd3 : (Nat.repr t1).data ++ '_' :: (r1.data ++ '_' :: f.data) =
      (Nat.repr t2).data ++ '_' :: (r2.data ++ '_' :: f.data) := by
    simpa [List.singleton_append] using hd2
  have hstep1 := sep_parse (Nat.repr t1).data (Nat.repr t2).data _ _
    (fun c hc => isDigit_ne_underscore c (repr_digits t1 c hc))
    (fun c hc => isDigit_ne_underscore c (repr_digits t2 c hc)) hd3
  have hstep2 := sep_parse r1.data r2.data f.data f.data
    (fun c hc => base36_ne_underscore c (h1 c hc))
    (fun c hc => base36_ne_underscore c (h2 c hc)) hstep1.2
  exact ⟨repr_inj t1 t2 (String.ext hstep1.1), String.ext hstep2.1⟩

/-! ### Claims -/

/-- C2: for every valid creation input (one the zod schema accepts), the
created job has status `pending`, all five nullable fields absent, and
`created_at = updated_at`. -/
theorem create_valid_input_returns_pending (s : Store) (r : RawCreateInput)
    (input : CreateTranslationJobInput) (now : Nat)
    (hv : parseCreateTranslationJobInput r = some input) :
    (createTranslationJob s input now).2.status = TranslationStatus.pending ∧
    (createTranslationJob s input now).2.detected_language = none ∧
    (createTranslationJob s input now).2.translated_file_path = none ∧
    (createTranslationJob s input now).2.transcript = none ∧
    (createTranslationJob s input now).2.translated_transcript = none ∧
    (createTranslationJob s input now).2.error_message = none ∧
    (createTranslationJob s input now).2.created_at = (createTranslationJob s input now).2.updated_at :=
  ⟨rfl, rfl, rfl, rfl, rfl, rfl, rfl⟩

/-- Witness for C2 at a concrete input. -/
theorem create_valid_input_returns_pending_witness :
    parseCreateTranslationJobInput ⟨"clip.mp4", "/uploads/clip.mp4", "es"⟩ =
      some ⟨"clip.mp4", "/uploads/clip.mp4", SupportedLanguage.es⟩ ∧
    (createTranslationJob Store.empty ⟨"clip.mp4", "/uploads/clip.mp4", SupportedLanguage.es⟩
      7).2.status = TranslationStatus.pending :=
  ⟨by decide,
   (create_valid_input_returns_pending Store.empty ⟨"clip.mp4", "/uploads/clip.mp4", "es"⟩
     ⟨"clip.mp4", "/uploads/clip.mp4", SupportedLanguage.es⟩ 7 (by decide)).1⟩

/-- C9: the gateway rejects a creation input with an empty filename, an empty
path, or a target language outside the 12-code set, and the store is left
untouched. -/
theorem create_rejects_invalid_input (s : Store) (r : RawCreateInput) (now : Nat)
    (h : r.original_filename = "" ∨ r.original_file_path = "" ∨
      r.target_language ∉ supportedLanguageCodes) :
    createTranslationJobProc s r now = (s, none) := by
  have hp : parseCreateTranslationJobInput r = none := by
    unfold parseCreateTranslationJobInput
    rcases h with h | h | h
    · simp [h]
    · by_cases h1 : r.original_filename.length < 1
      · simp [h1]
      · simp [h1, h]
    · by_cases h1 : r.original_filename.length < 1
      · simp [h1]
      · by_cases h2 : r.original_file_path.length < 1
        · simp [h1, h2]
        · simp [h1, h2, unsupported_code_parses_to_none _ h]
  unfold createTranslationJobProc
  rw [hp]

/-- Witness for C9 at a concrete input. -/
theorem create_rejects_invalid_input_witness :
    createTranslationJobProc Store.empty ⟨"", "/uploads/clip.mp4", "es"⟩ 7 =
      (Store.empty, none) :=
  create_rejects_invalid_input Store.empty ⟨"", "/uploads/clip.mp4", "es"⟩ 7 (Or.inl rfl)

/-- C3: a read or an update addressed to an id no stored job carries yields
not-found (`none`), and the update leaves the store exactly as it was (no row
is created or modified); neither operation errors, both being total. -/
theorem missing_id_not_found (s : Store) (i : Nat) (u : UpdateTranslationJobInput) (now : Nat)
    (hmiss : ∀ j ∈ s.jobs, j.id ≠ i) (hu : u.id = i) :
    getTranslationJob s i = none ∧ updateTranslationJob s u now = (s, none) := by
  have hfind : getTranslationJob s i = none := by
    unfold getTranslationJob
    rw [List.find?_eq_none]
    intro j hj
    simp [hmiss j hj]
  refine ⟨hfind, ?_⟩
  unfold updateTranslationJob
  have hfil : s.jobs.filter (fun j => j.id = u.id) = [] := by
    rw [List.filter_eq_nil_iff]
    intro j hj
    simp [hu, hmiss j hj]
  simp [hfil]

/-- After an update, the store is either untouched (no matching row) or the
row-wise rewrite of the old table. -/
theorem update_store_cases (s : Store) (u : UpdateTranslationJobInput) (now : Nat) :
    (updateTranslationJob s u now).1 = s ∨
    (updateTranslationJob s u now).1 =
      ⟨s.jobs.map (fun k => if k.id = u.id then applyUpdate k u now else k), s.nextId⟩ := by
  unfold updateTranslationJob
  cases hfil : s.jobs.filter (fun k => k.id = u.id) with
  | nil => simp [hfil]
  | cons a t => simp [hfil]

/-- C1: an update of an existing job changes exactly the fields present in
the partial input, plus `updated_at`: omitted fields keep their prior value,
a present field takes the supplied value (an explicit null — `some none` —
clears the nullable field to absent), identity and creation-time fields are
untouched, the result is both returned and stored, and every other record is
left unchanged. -/
theorem update_changes_exactly_present_fields (s : Store) (u : UpdateTranslationJobInput)
    (now : Nat) (j : TranslationJob) (h : getTranslationJob s u.id = some j) :
    ∃ j', (updateTranslationJob s u now).2 = some j' ∧
      getTranslationJob (updateTranslationJob s u now).1 u.id = some j' ∧
      j'.id = j.id ∧ j'.original_filename = j.original_filename ∧
      j'.original_file_path = j.original_file_path ∧
      j'.target_language = j.target_language ∧ j'.created_at = j.created_at ∧
      (u.detected_language = none → j'.detected_language = j.detected_language) ∧
      (u.status = none → j'.status = j.status) ∧
      (u.translated_file_path = none → j'.translated_file_path = j.translated_file_path) ∧
      (u.transcript = none → j'.transcript = j.transcript) ∧
      (u.translated_transcript = none → j'.translated_transcript = j.translated_transcript) ∧
      (u.error_message = none → j'.error_message = j.error_message) ∧
      (∀ v, u.detected_language = some v → j'.detected_language = some v) ∧
      (∀ v, u.status = some v → j'.status = v) ∧
      (∀ v, u.translated_file_path = some v → j'.translated_file_path = v) ∧
      (∀ v, u.transcript = some v → j'.transcript = v) ∧
      (∀ v, u.translated_transcript = some v → j'.translated_transcript = v) ∧
      (∀ v, u.error_message = some v → j'.error_message = v) ∧
      j'.updated_at = now ∧
      (∀ i, i ≠ u.id →
        getTranslationJob (updateTranslationJob s u now).1 i = getTranslationJob s i) := by
  have hjid : j.id = u.id := by
    have := List.find?_some h
    simpa using this
  refine ⟨applyUpdate j u now, ?_, ?_, rfl, rfl, rfl, rfl, rfl, ?_, ?_, ?_, ?_, ?_, ?_,
    ?_, ?_, ?_, ?_, ?_, ?_, rfl, ?_⟩
  · rw [updateTranslationJob_found s u now j h]
  · rw [updateTranslationJob_found s u now j h]
    unfold getTranslationJob at h ⊢
    rw [find?_map_update, h]
    simp [hjid]
  · intro hu; simp [applyUpdate, hu]
  · intro hu; simp [applyUpdate, hu]
  · intro hu; simp [applyUpdate, hu]
  · intro hu; simp [applyUpdate, hu]
  · intro hu; simp [applyUpdate, hu]
  · intro hu; simp [applyUpdate, hu]
  · intro v hv; simp [applyUpdate, hv]
  · intro v hv; simp [applyUpdate, hv]
  · intro v hv; simp [applyUpdate, hv]
  · intro v hv; simp [applyUpdate, hv]
  · intro v hv; simp [applyUpdate, hv]
  · intro v hv; simp [applyUpdate, hv]
  · intro i hi
    rw [updateTranslationJob_found s u now j h]
    unfold getTranslationJob
    simp only [find?_map_update]
    cases hk : (s.jobs.find? (fun k => k.id = i)) with
    | none => rfl
    | some k =>
      have hki : k.id = i := by simpa using List.find?_some hk
      simp [hki, hi]

/-- Witness for C1: clearing a previously-set transcript with an explicit
null on a one-job store. -/
theorem update_changes_exactly_present_fields_witness :
    ∃ j', (updateTranslationJob
        ⟨[(⟨1, "a.mp4", "/uploads/a.mp4", none, .es, .processing, none,
            some "hello", none, none, 3, 4⟩ : TranslationJob)], 2⟩
        ⟨1, none, none, none, some none, none, none⟩ 9).2 = some j' ∧
      j'.transcript = none ∧ j'.updated_at = 9 := by
  have h := update_changes_exactly_present_fields
    ⟨[(⟨1, "a.mp4", "/uploads/a.mp4", none, .es, .processing, none,
        some "hello", none, none, 3, 4⟩ : TranslationJob)], 2⟩
    ⟨1, none, none, none, some none, none, none⟩ 9
    (⟨1, "a.mp4", "/uploads/a.mp4", none, .es, .processing, none,
        some "hello", none, none, 3, 4⟩ : TranslationJob) (by decide)
  obtain ⟨j', h1, _, _, _, _, _, _, _, _, _, _, _, _, _, _, _, hset, _, _, hupd, _⟩ := h
  exact ⟨j', h1, hset none rfl, hupd⟩

/-- C7: `update(id, {})` on an existing job rewrites only `updated_at`,
setting it to the clock (strictly above its old value when the clock has
advanced), in both the returned and the stored record, and leaves every other
record unchanged. -/
theorem empty_update_changes_only_updated_at (s : Store) (i now : Nat) (j : TranslationJob)
    (h : getTranslationJob s i = some j) (hclock : j.updated_at < now) :
    (updateTranslationJob s (emptyUpdate i) now).2 = some { j with updated_at := now } ∧
    getTranslationJob (updateTranslationJob s (emptyUpdate i) now).1 i =
      some { j with updated_at := now } ∧
    j.updated_at < ({ j with updated_at := now } : TranslationJob).updated_at ∧
    (∀ i', i' ≠ i → getTranslationJob (updateTranslationJob s (emptyUpdate i) now).1 i' =
      getTranslationJob s i') := by
  have hu : (emptyUpdate i).id = i := rfl
  have h' : getTranslationJob s (emptyUpdate i).id = some j := h
  have hjid : j.id = i := by simpa using List.find?_some h
  have happ : applyUpdate j (emptyUpdate i) now = { j with updated_at := now } := rfl
  have hfound := updateTranslationJob_found s (emptyUpdate i) now j h'
  refine ⟨?_, ?_, hclock, ?_⟩
  · rw [hfound, happ]
  · rw [hfound]
    unfold getTranslationJob at h ⊢
    rw [find?_map_update, h]
    simp only [Option.map_some', hjid, emptyUpdate, if_pos]
    subst hjid
    rfl
  · intro i' hi'
    rw [hfound]
    unfold getTranslationJob
    rw [find?_map_update]
    cases hk : (s.jobs.find? (fun k => k.id = i')) with
    | none => rfl
    | some k =>
      have hki : k.id = i' := by simpa using List.find?_some hk
      simp [emptyUpdate, hki, hi']

/-- Witness for C7 on a one-job store whose job has `updated_at = 4 < 9`. -/
theorem empty_update_changes_only_updated_at_witness :
    (updateTranslationJob
        ⟨[(⟨1, "a.mp4", "/uploads/a.mp4", none, .es, .processing, none,
            none, none, none, 3, 4⟩ : TranslationJob)], 2⟩ (emptyUpdate 1) 9).2 =
      some (⟨1, "a.mp4", "/uploads/a.mp4", none, .es, .processing, none,
            none, none, none, 3, 9⟩ : TranslationJob) :=
  (empty_update_changes_only_updated_at
    ⟨[(⟨1, "a.mp4", "/uploads/a.mp4", none, .es, .processing, none,
        none, none, none, 3, 4⟩ : TranslationJob)], 2⟩ 1 9
    (⟨1, "a.mp4", "/uploads/a.mp4", none, .es, .processing, none,
        none, none, none, 3, 4⟩ : TranslationJob) (by decide) (by decide)).1

/-- The store-wide timestamp invariant of the spec: every row satisfies
`created_at ≤ updated_at`. -/
def timestampsConsistent (s : Store) : Prop :=
  ∀ j ∈ s.jobs, j.created_at ≤ j.updated_at

/-- C8: the invariant `created_at ≤ updated_at` holds of a freshly created
row (where the two are equal) and is preserved across the store by creation
and by any update run at a clock not behind the stored creation times. -/
theorem created_le_updated_invariant (s : Store) (input : CreateTranslationJobInput)
    (u : UpdateTranslationJobInput) (now : Nat) :
    ((createTranslationJob s input now).2.created_at =
      (createTranslationJob s input now).2.updated_at) ∧
    (timestampsConsistent s → timestampsConsistent (createTranslationJob s input now).1) ∧
    ((∀ j ∈ s.jobs, j.created_at ≤ now) → timestampsConsistent s →
      timestampsConsistent (updateTranslationJob s u now).1) := by
  refine ⟨rfl, ?_, ?_⟩
  · intro hs j hj
    unfold createTranslationJob at hj
    simp only [List.mem_append, List.mem_singleton] at hj
    rcases hj with hj | hj
    · exact hs j hj
    · subst hj; exact le_refl _
  · intro hclock hs j hj
    rcases update_store_cases s u now with hcase | hcase
    · rw [hcase] at hj; exact hs j hj
    · rw [hcase] at hj
      simp only [List.mem_map] at hj
      obtain ⟨k, hk, rfl⟩ := hj
      by_cases hkid : k.id = u.id
      · simp only [hkid, if_pos]
        show (applyUpdate k u now).created_at ≤ (applyUpdate k u now).updated_at
        have : (applyUpdate k u now).created_at = k.created_at := rfl
        rw [this]
        exact hclock k hk
      · simp only [hkid, if_neg, not_false_iff]
        exact hs k hk

/-- Witness for C8 on a one-job store. -/
theorem created_le_updated_invariant_witness :
    timestampsConsistent
      (updateTranslationJob
        ⟨[(⟨1, "a.mp4", "/uploads/a.mp4", none, .es, .pending, none,
            none, none, none, 3, 3⟩ : TranslationJob)], 2⟩ (emptyUpdate 1) 9).1 :=
  (created_le_updated_invariant
    ⟨[(⟨1, "a.mp4", "/uploads/a.mp4", none, .es, .pending, none,
        none, none, none, 3, 3⟩ : TranslationJob)], 2⟩
    ⟨"a.mp4", "/uploads/a.mp4", .es⟩ (emptyUpdate 1) 9).2.2
    (by intro j hj; simp only [List.mem_singleton] at hj; subst hj; decide)
    (by intro j hj; simp only [List.mem_singleton] at hj; subst hj; decide)

/-- Every row carrying id `i` has its detected language set. -/
def detectedSetAt (i : Nat) (s : Store) : Prop :=
  ∀ j ∈ s.jobs, j.id = i → j.detected_language.isSome = true

/-- Run a sequence of update calls, each with its own clock reading. -/
def applyUpdates (s : Store) (us : List (UpdateTranslationJobInput × Nat)) : Store :=
  us.foldl (fun t p => (updateTranslationJob t p.1 p.2).1) s

/-- One update cannot clear a set detected language: the input either omits
the field or supplies a language code, never a null. -/
theorem update_preserves_detectedSetAt (i : Nat) (s : Store)
    (u : UpdateTranslationJobInput) (now : Nat) (h : detectedSetAt i s) :
    detectedSetAt i (updateTranslationJob s u now).1 := by
  rcases update_store_cases s u now with hcase | hcase
  · rw [hcase]; exact h
  · rw [hcase]
    intro j hj hji
    simp only [List.mem_map] at hj
    obtain ⟨k, hk, rfl⟩ := hj
    by_cases hkid : k.id = u.id
    · rw [if_pos hkid] at hji ⊢
      have hki : k.id = i := by rw [← applyUpdate_id k u now]; exact hji
      have hks := h k hk hki
      show (applyUpdate k u now).detected_language.isSome = true
      cases hdl : u.detected_language with
      | none => simp [applyUpdate, hdl, hks]
      | some l => simp [applyUpdate, hdl]
    · rw [if_neg hkid] at hji ⊢
      exact h k hk hji

/-- C10: once a job's `detected_language` is set, it stays set under every
sequence of update calls — the update schema never carries an explicit null
for that field. -/
theorem detected_language_never_cleared (i : Nat) (s : Store)
    (us : List (UpdateTranslationJobInput × Nat)) (h : detectedSetAt i s) :
    detectedSetAt i (applyUpdates s us) := by
  induction us generalizing s with
  | nil => exact h
  | cons p ps ih => exact ih _ (update_preserves_detectedSetAt i s p.1 p.2 h)

/-- Witness for C10: a store whose job 1 has a detected language, run through
two updates (a status change and a transcript clear). -/
theorem detected_language_never_cleared_witness :
    detectedSetAt 1 (applyUpdates
      ⟨[(⟨1, "a.mp4", "/uploads/a.mp4", some .en, .es, .processing, none,
          some "hello", none, none, 3, 4⟩ : TranslationJob)], 2⟩
      [(⟨1, none, some .completed, none, none, none, none⟩, 9),
       (⟨1, none, none, none, some none, none, none⟩, 11)]) :=
  detected_language_never_cleared 1
    ⟨[(⟨1, "a.mp4", "/uploads/a.mp4", some .en, .es, .processing, none,
        some "hello", none, none, 3, 4⟩ : TranslationJob)], 2⟩
    [(⟨1, none, some .completed, none, none, none, none⟩, 9),
     (⟨1, none, none, none, some none, none, none⟩, 11)]
    (by intro j hj hji; simp only [List.mem_singleton] at hj; subst hj; rfl)

/-- C6: `getSupportedLanguages` returns exactly 12 entries, with pairwise
distinct codes and pairwise distinct display names, covering the whole
12-code set, sorted by display name, and identical across calls (it is a
constant). -/
theorem listLanguages_spec :
    getSupportedLanguages.length = 12 ∧
    (getSupportedLanguages.map LanguageOption.code).Nodup ∧
    (getSupportedLanguages.map LanguageOption.name).Nodup ∧
    (∀ l : SupportedLanguage, l ∈ getSupportedLanguages.map LanguageOption.code) ∧
    getSupportedLanguages.Pairwise (fun a b => a.name ≤ b.name) ∧
    getSupportedLanguages = getSupportedLanguages := by
  have hperm : getSupportedLanguages.Perm languageNames := List.mergeSort_perm _ _
  refine ⟨?_, ?_, ?_, ?_, ?_, rfl⟩
  · rw [hperm.length_eq]; rfl
  · exact ((hperm.map LanguageOption.code).nodup_iff).mpr (by decide)
  · exact ((hperm.map LanguageOption.name).nodup_iff).mpr (by decide)
  · intro l
    exact ((hperm.map LanguageOption.code).mem_iff).mpr (by cases l <;> decide)
  · have htrans : ∀ a b c : LanguageOption,
        (decide (a.name ≤ b.name)) = true → (decide (b.name ≤ c.name)) = true →
        (decide (a.name ≤ c.name)) = true := by
      intro a b c hab hbc
      rw [decide_eq_true_iff] at hab hbc ⊢
      exact le_trans hab hbc
    have htotal : ∀ a b : LanguageOption,
        ((decide (a.name ≤ b.name)) || (decide (b.name ≤ a.name))) = true := by
      intro a b
      rcases le_total a.name b.name with h | h <;> simp [h]
    have hs := List.sorted_mergeSort htrans htotal languageNames
    exact hs.imp (fun h => of_decide_eq_true h)

/-- Two rows sharing a `created_at`, as batch inserts in one transaction
produce (`defaultNow()` is the transaction timestamp); inserted A then B. -/
def tiedJobA : TranslationJob :=
  ⟨1, "a.mp4", "/uploads/a.mp4", none, .es, .pending, none, none, none, none, 100, 100⟩

def tiedJobB : TranslationJob :=
  ⟨2, "b.mp4", "/uploads/b.mp4", none, .fr, .pending, none, none, none, none, 100, 100⟩

/-- Counterexample to C4 as stated: for a store holding two rows with equal
`created_at` (inserted A then B), the reversed order [B, A] and the insertion
order [A, B] are BOTH permissible results of `ORDER BY created_at DESC` — the
query does not determine the tie order, so the listing need not break ties by
insertion order. -/
theorem listAll_tie_order_unspecified :
    getTranslationJobsResult ⟨[tiedJobA, tiedJobB], 3⟩ [tiedJobB, tiedJobA] ∧
    getTranslationJobsResult ⟨[tiedJobA, tiedJobB], 3⟩ [tiedJobA, tiedJobB] ∧
    [tiedJobB, tiedJobA] ≠ [tiedJobA, tiedJobB] :=
  ⟨⟨by decide, by decide⟩, ⟨by decide, by decide⟩, by decide⟩

/-- C4 amended: every permissible result of `listAll` consists of exactly the
stored rows (a permutation, hence matching length and membership), sorted by
`created_at` descending, and for the empty store only the empty sequence is
permissible; a permissible result always exists.  The relative order of rows
sharing a `created_at` is not specified by the query. -/
theorem listAll_sorted_desc (s : Store) (l : List TranslationJob)
    (h : getTranslationJobsResult s l) :
    l.Perm s.jobs ∧ l.length = s.jobs.length ∧ (∀ j, j ∈ l ↔ j ∈ s.jobs) ∧
    l.Pairwise (fun a b => b.created_at ≤ a.created_at) ∧
    (s.jobs = [] → l = []) ∧
    (∃ l', getTranslationJobsResult s l') := by
  obtain ⟨hperm, hsorted⟩ := h
  refine ⟨hperm, hperm.length_eq, fun j => hperm.mem_iff, hsorted, ?_, ?_⟩
  · intro hnil
    rw [hnil] at hperm
    exact hperm.eq_nil
  · refine ⟨s.jobs.mergeSort (fun a b => b.created_at ≤ a.created_at),
      List.mergeSort_perm _ _, ?_⟩
    have htrans : ∀ a b c : TranslationJob,
        (decide (b.created_at ≤ a.created_at)) = true →
        (decide (c.created_at ≤ b.created_at)) = true →
        (decide (c.created_at ≤ a.created_at)) = true := by
      intro a b c hab hbc
      rw [decide_eq_true_iff] at hab hbc ⊢
      exact le_trans hbc hab
    have htotal : ∀ a b : TranslationJob,
        ((decide (b.created_at ≤ a.created_at)) ||
          (decide (a.created_at ≤ b.created_at))) = true := by
      intro a b
      rcases le_total b.created_at a.created_at with hx | hx <;> simp [hx]
    have hs := List.sorted_mergeSort htrans htotal s.jobs
    exact hs.imp (fun hx => of_decide_eq_true hx)

/-- Witness for C4 on the two-row tied store: the reversed listing satisfies
the query contract and the theorem applies to it. -/
theorem listAll_sorted_desc_witness :
    [tiedJobB, tiedJobA].Perm [tiedJobA, tiedJobB] ∧
    [tiedJobB, tiedJobA].Pairwise (fun a b => b.created_at ≤ a.created_at) :=
  have h := listAll_sorted_desc ⟨[tiedJobA, tiedJobB], 3⟩ [tiedJobB, tiedJobA]
    ⟨by decide, by decide⟩
  ⟨h.1, h.2.2.2.1⟩

/-- Counterexample to C5 as stated: two distinct upload calls — they create
distinct records with distinct ids — that draw the same timestamp and the
same random token generate the SAME storage path, so the path set has size 1
for 2 uploads. -/
theorem upload_same_env_same_path :
    (uploadVideo Store.empty ⟨"clip.mp4", "AAAA", .es⟩ 1000 "abc123" 5).2.id ≠
      (uploadVideo (uploadVideo Store.empty ⟨"clip.mp4", "AAAA", .es⟩ 1000 "abc123" 5).1
        ⟨"clip.mp4", "AAAA", .es⟩ 1000 "abc123" 6).2.id ∧
    (uploadVideo Store.empty ⟨"clip.mp4", "AAAA", .es⟩ 1000 "abc123" 5).2.original_file_path =
      (uploadVideo (uploadVideo Store.empty ⟨"clip.mp4", "AAAA", .es⟩ 1000 "abc123" 5).1
        ⟨"clip.mp4", "AAAA", .es⟩ 1000 "abc123" 6).2.original_file_path :=
  ⟨by decide, rfl⟩

/-- C5 amended: two uploads sharing a filename always create distinct job
records (fresh ids), and their storage paths are distinct provided the two
calls draw distinct (timestamp, random-token) environment pairs, the tokens
being base-36 strings as `Math.random().toString(36)` yields. -/
theorem upload_distinct_env_distinct_paths (s : Store) (in1 in2 : UploadVideoInput)
    (f : String) (t1 t2 now1 now2 : Nat) (r1 r2 : String)
    (hf1 : in1.filename = f) (hf2 : in2.filename = f)
    (hb1 : base36Token r1) (hb2 : base36Token r2)
    (hne : (t1, r1) ≠ (t2, r2)) :
    (uploadVideo s in1 t1 r1 now1).2.id ≠
      (uploadVideo (uploadVideo s in1 t1 r1 now1).1 in2 t2 r2 now2).2.id ∧
    (uploadVideo s in1 t1 r1 now1).2 ≠
      (uploadVideo (uploadVideo s in1 t1 r1 now1).1 in2 t2 r2 now2).2 ∧
    (uploadVideo s in1 t1 r1 now1).2.original_file_path ≠
      (uploadVideo (uploadVideo s in1 t1 r1 now1).1 in2 t2 r2 now2).2.original_file_path := by
  have hid1 : (uploadVideo s in1 t1 r1 now1).2.id = s.nextId := rfl
  have hid2 : (uploadVideo (uploadVideo s in1 t1 r1 now1).1 in2 t2 r2 now2).2.id =
      s.nextId + 1 := rfl
  refine ⟨?_, ?_, ?_⟩
  · rw [hid1, hid2]; omega
  · intro hcontra
    have hids := congrArg TranslationJob.id hcontra
    rw [hid1, hid2] at hids
    omega
  · have hp1 : (uploadVideo s in1 t1 r1 now1).2.original_file_path =
        mkUploadPath t1 r1 in1.filename := rfl
    have hp2 : (uploadVideo (uploadVideo s in1 t1 r1 now1).1 in2 t2 r2 now2).2.original_file_path =
        mkUploadPath t2 r2 in2.filename := rfl
    rw [hp1, hp2, hf1, hf2]
    intro hcontra
    have hinj := mkUploadPath_inj t1 t2 r1 r2 f hb1 hb2 hcontra
    exact hne (by rw [hinj.1, hinj.2])

/-- Witness for the amended C5: same filename, same timestamp, different
random tokens. -/
theorem upload_distinct_env_distinct_paths_witness :
    (uploadVideo Store.empty ⟨"clip.mp4", "AAAA", .es⟩ 1000 "abc123" 5).2.original_file_path ≠
      (uploadVideo (uploadVideo Store.empty ⟨"clip.mp4", "AAAA", .es⟩ 1000 "abc123" 5).1
        ⟨"clip.mp4", "AAAA", .es⟩ 1000 "xyz789" 6).2.original_file_path :=
  (upload_distinct_env_distinct_paths Store.empty ⟨"clip.mp4", "AAAA", .es⟩
    ⟨"clip.mp4", "AAAA", .es⟩ "clip.mp4" 1000 1000 5 6 "abc123" "xyz789" rfl rfl
    (by unfold base36Token base36Char; decide)
    (by unfold base36Token base36Char; decide)
    (by decide)).2.2

/-- A concrete job used by the witnesses below. -/
def sampleJob : TranslationJob where
  id := 1
  original_filename := "a.mp4"
  original_file_path := "/uploads/a.mp4"
  detected_language := none
  target_language := .es
  status := .pending
  translated_file_path := none
  transcript := none
  translated_transcript := none
  error_message := none
  created_at := 3
  updated_at := 3

/-- Witness for C3 at a concrete store holding one job with id 1. -/
theorem missing_id_not_found_witness :
    getTranslationJob ⟨[sampleJob], 2⟩ 2 = none ∧
    updateTranslationJob ⟨[sampleJob], 2⟩ (emptyUpdate 2) 9 = (⟨[sampleJob], 2⟩, none) :=
  missing_id_not_found ⟨[sampleJob], 2⟩ 2 (emptyUpdate 2) 9 (by decide) rfl

end VideoDubber
